import Mathlib

/-!
Verification of the picture-list localization scripts.

The repository holds two near-duplicate ExtendScript files:
`src/PictureList_Import.jsx` and an unnamed near-duplicate (`src/unnamed/part_000`).
Both localize a template document by matching spreadsheet rows to the document's
text-bearing elements (whitespace-insensitively) and writing target-language text
into fresh per-language copies of the document.

This file is a shallow embedding of the pure core of both scripts:
* strings are `List Char`;
* a spreadsheet row is its column-name → cell-text mapping;
* a document's text-bearing elements are the list of their text contents,
  in enumeration order (the element index is the list position);
* `-1` no-match sentinels of the JS code become `none : Option Nat`;
* the document/file-system layer is a map from file path to element texts.
-/

namespace PictureList

/-- A piece of text (a JS string), modeled as its list of characters. -/
abbrev Text := List Char

/-- The character class of the JS regex `/\s/` (`WHITESPACE_REGEX` at
`src/PictureList_Import.jsx:43` and the local `whitespaceRegex` of the
near-duplicate): ECMAScript WhiteSpace and LineTerminator code points. -/
def jsWhitespace (c : Char) : Bool :=
  c.val = 0x9 || c.val = 0xA || c.val = 0xB || c.val = 0xC || c.val = 0xD ||
  c.val = 0x20 || c.val = 0xA0 || c.val = 0x1680 ||
  (0x2000 ≤ c.val && c.val ≤ 0x200A) ||
  c.val = 0x2028 || c.val = 0x2029 || c.val = 0x202F || c.val = 0x205F ||
  c.val = 0x3000 || c.val = 0xFEFF

/-- `s.replace(WHITESPACE_REGEX, "")`: delete every whitespace character. -/
def normalize (s : Text) : Text :=
  s.filter (fun c => !jsWhitespace c)

/-- One worksheet row: the mapping from column name (language) to cell text,
as produced by `XLSX.utils.sheet_to_json`.  The scripts only ever read
`row[lang]` for language columns, so the row is embedded as that lookup map. -/
structure Row where
  cell : Text → Text

/-- `findMatchingTextLayer` of `src/PictureList_Import.jsx:265-278`.
The JS keeps two parallel arrays `layerTextStrings` / `layerIndices` that are
always spliced at the same position; they are embedded as one list of
(element index, normalized element text) pairs.  The scan returns the first
candidate whose stored (already normalized) text equals `searchText` and
removes it from the pool (`splice`); otherwise it returns the `-1` sentinel
(`none`) and leaves the pool unchanged. -/
def findMatchingTextLayer : List (Nat × Text) → Text → Option Nat × List (Nat × Text)
  | [], _ => (none, [])
  | (layerIndex, layerText) :: rest, searchText =>
    if layerText = searchText then
      (some layerIndex, rest)
    else
      let r := findMatchingTextLayer rest searchText
      (r.1, (layerIndex, layerText) :: r.2)

/-- The candidate pool built by the loop at `src/PictureList_Import.jsx:292-297`:
`layerIndices.push(i); layerTextStrings.push(normalize(text_i))`, starting the
counter at `i`. -/
def layerPoolFrom : Nat → List Text → List (Nat × Text)
  | _, [] => []
  | i, t :: rest => (i, normalize t) :: layerPoolFrom (i + 1) rest

/-- The row loop of `mapTextLayers` (`src/PictureList_Import.jsx:300-309`):
for each row in order, normalize its source-language cell, claim the first
matching pool candidate, and record either the claimed element index or the
sentinel plus the row's original (non-normalized) source text in the
missing-text list. -/
def mapTextLayersGo (sourceLang : Text) :
    List (Nat × Text) → List Row → List (Option Nat) × List Text
  | _, [] => ([], [])
  | pool, row :: rest =>
    let trimmedSourceText := normalize (row.cell sourceLang)
    let m := findMatchingTextLayer pool trimmedSourceText
    let r := mapTextLayersGo sourceLang m.2 rest
    match m.1 with
    | some layerMatchIndex => (some layerMatchIndex :: r.1, r.2)
    | none => (none :: r.1, row.cell sourceLang :: r.2)

/-- `mapTextLayers` of `src/PictureList_Import.jsx:287-319`, restricted to its
pure core: the source document's enumerated element texts come in as
`layerTexts` (the document is only read and closed, never written), and the
interactive missing-rows confirmation is dropped — the function returns the
LayerMap together with the missing-text list it would show. -/
def mapTextLayers (layerTexts : List Text) (worksheetData : List Row) (sourceLang : Text) :
    List (Option Nat) × List Text :=
  mapTextLayersGo sourceLang (layerPoolFrom 0 layerTexts) worksheetData

/-- JS `sourceName.split(".")` (split on every dot; `"".split(".") = [""]`). -/
def splitOnDot : Text → List Text
  | [] => [[]]
  | c :: rest =>
    let r := splitOnDot rest
    if c = '.' then
      [] :: r
    else
      match r with
      | [] => [[c]]
      | comp :: comps => (c :: comp) :: comps

/-- JS `nameComponents.join(".")`. -/
def joinDot : List Text → Text
  | [] => []
  | [comp] => comp
  | comp :: comps => comp ++ '.' :: joinDot comps

/-- `generateTargetFilename` of `src/PictureList_Import.jsx:100-104` (identical
in the near-duplicate): split the name on dots, append `"_" + targetLang` to
the component at `Math.max(0, length - 2)`, and join back with dots.
`Nat` subtraction makes `length - 2` exactly `Math.max(0, length - 2)`
because `splitOnDot` never returns an empty list. -/
def generateTargetFilename (sourceName targetLang : Text) : Text :=
  let nameComponents := splitOnDot sourceName
  let idx := nameComponents.length - 2
  joinDot (nameComponents.set idx (nameComponents.getD idx [] ++ '_' :: targetLang))

/-- The per-variant row loop of `generateLocalizedFiles`
(`src/PictureList_Import.jsx:337-342`), acting on the variant's element texts:
rows are consumed in order together with their LayerMap entries; a sentinel
entry is skipped, a real entry overwrites the element at that index with the
row's target-language cell. -/
def applyRowWrites (currentLang : Text) : List Text → List (Row × Option Nat) → List Text
  | textLayers, [] => textLayers
  | textLayers, (_, none) :: rest => applyRowWrites currentLang textLayers rest
  | textLayers, (row, some layerIndex) :: rest =>
      applyRowWrites currentLang (textLayers.set layerIndex (row.cell currentLang)) rest

/-- Element texts of the variant generated for `currentLang` by one iteration of
the language loop of `generateLocalizedFiles` (`src/PictureList_Import.jsx:336-342`),
given the fresh template copy's element texts. -/
def generateVariantTexts (templateTexts : List Text) (worksheetData : List Row)
    (textLayerMap : List (Option Nat)) (currentLang : Text) : List Text :=
  applyRowWrites currentLang templateTexts (worksheetData.zip textLayerMap)

/-- `generateLocalizedFiles` of `src/PictureList_Import.jsx:327-347` on element
texts: one final element-text list per selected target language, each variant
starting from a fresh copy of the template's element texts. -/
def generateLocalizedFilesA (templateTexts : List Text) (worksheetData : List Row)
    (textLayerMap : List (Option Nat)) (targetLangs : List Text) : List (List Text) :=
  targetLangs.map (fun currentLang =>
    generateVariantTexts templateTexts worksheetData textLayerMap currentLang)

/-- Write one file into the file-system map. -/
def writeFile (fs : Text → List Text) (name : Text) (contents : List Text) :
    Text → List Text :=
  fun n => if n = name then contents else fs n

/-- `generateLocalizedFiles` of `src/PictureList_Import.jsx:327-347` at the
file-system level.  For each target language in order: derive the target
filename, copy the source file (`ccFile.copy(targetFile)` reads the file at
the source path in the current file system), rewrite the copy's element texts
through the row loop, and save the result at the target path.  The source
path is never written. -/
def generateLocalizedFilesFS (ccPath ccName : Text) (worksheetData : List Row)
    (textLayerMap : List (Option Nat)) :
    (Text → List Text) → List Text → Text → List Text
  | fs, [] => fs
  | fs, currentLang :: restLangs =>
    let targetFilename := generateTargetFilename ccName currentLang
    let fs' := writeFile fs (ccPath ++ '/' :: targetFilename)
      (generateVariantTexts (fs (ccPath ++ '/' :: ccName)) worksheetData
        textLayerMap currentLang)
    generateLocalizedFilesFS ccPath ccName worksheetData textLayerMap fs' restLangs

/-- A whole run of `src/PictureList_Import.jsx`'s core (`main`, lines 402-408):
the matcher reads the source document's element texts from the file system
(opening and closing the document changes nothing), then the variant
generator runs.  Returns the final file system plus the matcher's output. -/
def runLocalization (fs : Text → List Text) (ccPath ccName sourceLang : Text)
    (targetLangs : List Text) (worksheetData : List Row) :
    (Text → List Text) × (List (Option Nat) × List Text) :=
  let m := mapTextLayers (fs (ccPath ++ '/' :: ccName)) worksheetData sourceLang
  (generateLocalizedFilesFS ccPath ccName worksheetData m.1 fs targetLangs, m)

/-- `findMatchingTextLayer` of `src/unnamed/part_000:213-223`, which scans the
current element texts with a counter `i` and compares both sides normalized;
no candidate is ever removed.  `findIdxFrom s n L` is the loop from counter
value `n`. -/
def findIdxFrom (searchText : Text) : Nat → List Text → Option Nat
  | _, [] => none
  | i, layerText :: rest =>
    if normalize layerText = normalize searchText then some i
    else findIdxFrom searchText (i + 1) rest

/-- `findMatchingTextLayer` of `src/unnamed/part_000:213-223`. -/
def findMatchingTextLayerB (textLayers : List Text) (searchText : Text) : Option Nat :=
  findIdxFrom searchText 0 textLayers

/-- The first language iteration of `generateLocalizedFiles` of
`src/unnamed/part_000:231-263`: `dataLayerIndices` starts empty, so for every
row the matcher runs against the variant's CURRENT element texts (which
earlier rows of the same iteration may already have rewritten), the found
index (or sentinel) is pushed, and the row's target text is written at the
found index.  Returns the built index list and the final element texts. -/
def buildAndApplyB (sourceLang currentLang : Text) :
    List Text → List Row → List (Option Nat) × List Text
  | textLayers, [] => ([], textLayers)
  | textLayers, row :: rest =>
    let m := findMatchingTextLayerB textLayers (row.cell sourceLang)
    let textLayers' :=
      match m with
      | none => textLayers
      | some layerIndex => textLayers.set layerIndex (row.cell currentLang)
    let r := buildAndApplyB sourceLang currentLang textLayers' rest
    (m :: r.1, r.2)

/-- `generateLocalizedFiles` of `src/unnamed/part_000:231-263` on element texts:
the first target language builds `dataLayerIndices` lazily while editing its
own variant; every later language starts from a fresh template copy and
replays the cached indices (the `dataLayerIndices.length < dataRow + 1` guard
is then always false).  Returns the lazily built index list and the final
element texts of each variant in language order. -/
def generateLocalizedFilesB (templateTexts : List Text) (sourceLang : Text)
    (targetLangs : List Text) (worksheetData : List Row) :
    List (Option Nat) × List (List Text) :=
  match targetLangs with
  | [] => ([], [])
  | firstLang :: restLangs =>
    let first := buildAndApplyB sourceLang firstLang templateTexts worksheetData
    (first.1,
     first.2 :: restLangs.map (fun currentLang =>
       generateVariantTexts templateTexts worksheetData first.1 currentLang))

/-! ### Filename derivation: helper lemmas -/

theorem splitOnDot_ne_nil (s : Text) : splitOnDot s ≠ [] := by
  cases s with
  | nil => simp [splitOnDot]
  | cons c rest =>
    rw [splitOnDot]
    split
    · simp
    · split <;> simp

theorem splitOnDot_no_dot {s : Text} (h : '.' ∉ s) : splitOnDot s = [s] := by
  induction s with
  | nil => rfl
  | cons c rest ih =>
    simp only [List.mem_cons, not_or] at h
    rw [splitOnDot, if_neg (fun hc => h.1 hc.symm), ih h.2]

theorem splitOnDot_append_ext {ext : Text} (stem : Text) (h : '.' ∉ ext) :
    splitOnDot (stem ++ '.' :: ext) = splitOnDot stem ++ [ext] := by
  induction stem with
  | nil => simp [splitOnDot, splitOnDot_no_dot h]
  | cons c cs ih =>
    obtain ⟨y, ys, hy⟩ := List.exists_cons_of_ne_nil (splitOnDot_ne_nil cs)
    by_cases hc : c = '.'
    · subst hc
      simp [List.cons_append, splitOnDot, List.append_eq, ih]
    · simp [List.cons_append, splitOnDot, hc, List.append_eq, ih, hy]

theorem joinDot_splitOnDot (s : Text) : joinDot (splitOnDot s) = s := by
  induction s with
  | nil => rfl
  | cons c rest ih =>
    obtain ⟨y, ys, hy⟩ := List.exists_cons_of_ne_nil (splitOnDot_ne_nil rest)
    rw [splitOnDot]
    by_cases hc : c = '.'
    · subst hc
      rw [if_pos rfl, hy]
      rw [hy] at ih
      show '.' :: joinDot (y :: ys) = '.' :: rest
      rw [ih]
    · rw [if_neg hc, hy]
      rw [hy] at ih
      cases ys with
      | nil => simpa [joinDot] using congrArg (c :: ·) ih
      | cons z zs =>
        show (c :: y) ++ '.' :: joinDot (z :: zs) = c :: rest
        rw [← ih]
        rfl

theorem joinDot_append_last {cs : List Text} (e : Text) (h : cs ≠ []) :
    joinDot (cs ++ [e]) = joinDot cs ++ '.' :: e := by
  induction cs with
  | nil => exact absurd rfl h
  | cons x xs ih =>
    cases xs with
    | nil => rfl
    | cons z zs =>
      show x ++ '.' :: joinDot ((z :: zs) ++ [e]) = (x ++ '.' :: joinDot (z :: zs)) ++ '.' :: e
      rw [ih (by simp), List.append_assoc]
      rfl

theorem joinDot_set_last {cs : List Text} (suf : Text) (h : cs ≠ []) :
    joinDot (cs.set (cs.length - 1) (cs.getD (cs.length - 1) [] ++ suf))
      = joinDot cs ++ suf := by
  induction cs with
  | nil => exact absurd rfl h
  | cons x xs ih =>
    cases xs with
    | nil => rfl
    | cons z zs =>
      have hlen : (x :: z :: zs).length - 1 = ((z :: zs).length - 1) + 1 := by
        simp
      rw [hlen]
      show joinDot (x :: (z :: zs).set ((z :: zs).length - 1)
          ((z :: zs).getD ((z :: zs).length - 1) [] ++ suf))
        = (x ++ '.' :: joinDot (z :: zs)) ++ suf
      obtain ⟨w, ws, hw⟩ := List.exists_cons_of_ne_nil
        (l := (z :: zs).set ((z :: zs).length - 1)
          ((z :: zs).getD ((z :: zs).length - 1) [] ++ suf))
        (by simp)
      rw [hw]
      show x ++ '.' :: joinDot (w :: ws) = (x ++ '.' :: joinDot (z :: zs)) ++ suf
      rw [← hw, ih (by simp), List.append_assoc]
      rfl

theorem generateTargetFilename_no_dot {name : Text} (lang : Text) (h : '.' ∉ name) :
    generateTargetFilename name lang = name ++ '_' :: lang := by
  rw [generateTargetFilename, splitOnDot_no_dot h]
  rfl

theorem generateTargetFilename_ext {ext : Text} (stem lang : Text) (h : '.' ∉ ext) :
    generateTargetFilename (stem ++ '.' :: ext) lang
      = stem ++ '_' :: lang ++ '.' :: ext := by
  rw [generateTargetFilename, splitOnDot_append_ext stem h]
  obtain ⟨y, ys, hy⟩ := List.exists_cons_of_ne_nil (splitOnDot_ne_nil stem)
  have hm : 0 < (splitOnDot stem).length := by rw [hy]; simp
  have hidx : ((splitOnDot stem) ++ [ext]).length - 2 = (splitOnDot stem).length - 1 := by
    simp
  rw [hidx]
  have hlt : (splitOnDot stem).length - 1 < (splitOnDot stem).length := by omega
  rw [List.set_append_left _ _ hlt]
  have hgetD : ((splitOnDot stem) ++ [ext]).getD ((splitOnDot stem).length - 1) []
      = (splitOnDot stem).getD ((splitOnDot stem).length - 1) [] := by
    simp only [List.getD_eq_getElem?_getD, List.getElem?_append_left hlt]
  rw [hgetD]
  rw [joinDot_append_last ext (List.length_pos.mp (by simpa using hm))]
  rw [joinDot_set_last _ (splitOnDot_ne_nil stem), joinDot_splitOnDot, List.append_assoc]

theorem dot_decomp (name : Text) :
    '.' ∉ name ∨ ∃ stem ext, name = stem ++ '.' :: ext ∧ '.' ∉ ext := by
  induction name with
  | nil => left; simp
  | cons c rest ih =>
    rcases ih with h | ⟨stem, ext, heq, hext⟩
    · by_cases hc : c = '.'
      · right; exact ⟨[], rest, by rw [hc]; rfl, h⟩
      · left
        simp only [List.mem_cons, not_or]
        exact ⟨fun hd => hc hd.symm, h⟩
    · right; exact ⟨c :: stem, ext, by rw [heq]; rfl, hext⟩

theorem generateTargetFilename_ne (name lang : Text) :
    generateTargetFilename name lang ≠ name := by
  rcases dot_decomp name with h | ⟨stem, ext, heq, hext⟩
  · rw [generateTargetFilename_no_dot lang h]
    intro hEq
    have hlen := congrArg List.length hEq
    simp [List.length_append] at hlen
  · subst heq
    rw [generateTargetFilename_ext stem lang hext]
    intro hEq
    have hlen := congrArg List.length hEq
    simp [List.length_append] at hlen
    omega

/-! ### Filename derivation: claims C8 and C10 -/

/-- Claim C8: for every source filename and target language,
`generateTargetFilename` inserts `"_" + targetLang` immediately before the
final dot-separated extension segment when the name contains a dot, and
appends it to the whole name when it contains no dot; in particular
`("poster.psd", "fr")` yields `"poster_fr.psd"` and `("readme", "es")`
yields `"readme_es"`. -/
theorem filename_derivation :
    (∀ name lang : Text, '.' ∉ name →
      generateTargetFilename name lang = name ++ '_' :: lang)
    ∧ (∀ stem ext lang : Text, '.' ∉ ext →
      generateTargetFilename (stem ++ '.' :: ext) lang = stem ++ '_' :: lang ++ '.' :: ext)
    ∧ generateTargetFilename "poster.psd".toList "fr".toList = "poster_fr.psd".toList
    ∧ generateTargetFilename "readme".toList "es".toList = "readme_es".toList :=
  ⟨fun _ lang h => generateTargetFilename_no_dot lang h,
   fun stem _ lang h => generateTargetFilename_ext stem lang h,
   by decide, by decide⟩

/-- Witness for `filename_derivation`: its hypotheses hold on the concrete
inputs of the claim. -/
theorem filename_derivation_witness :
    ('.' ∉ "readme".toList)
    ∧ generateTargetFilename "readme".toList "es".toList
        = "readme".toList ++ '_' :: "es".toList :=
  ⟨by decide, filename_derivation.1 "readme".toList "es".toList (by decide)⟩

/-- Claim C10: for a source filename whose only dot is its first character
(a dotfile such as `".psd"`), `generateTargetFilename` treats the text after
the dot as the extension and attaches the suffix to the empty component
before the dot, returning `"_" + targetLang + originalName`
(e.g. `(".psd", "fr")` yields `"_fr.psd"`), not the whole-name-append form. -/
theorem dotfile_filename (ext lang : Text) (h : '.' ∉ ext) :
    generateTargetFilename ('.' :: ext) lang = '_' :: lang ++ '.' :: ext := by
  simpa using generateTargetFilename_ext [] lang h

/-- Witness for `dotfile_filename` at the claim's example `(".psd", "fr")`. -/
theorem dotfile_filename_witness :
    ('.' ∉ "psd".toList)
    ∧ generateTargetFilename ".psd".toList "fr".toList = "_fr.psd".toList :=
  ⟨by decide, (dotfile_filename "psd".toList "fr".toList (by decide)).trans (by decide)⟩

/-! ### Frame property: claim C7 -/

theorem source_path_ne_target_path (ccPath ccName lang : Text) :
    ccPath ++ '/' :: ccName ≠ ccPath ++ '/' :: generateTargetFilename ccName lang := by
  intro h
  have h2 := List.append_cancel_left h
  simp only [List.cons.injEq, true_and] at h2
  exact generateTargetFilename_ne ccName lang h2.symm

theorem generateLocalizedFilesFS_source_fixed (ccPath ccName : Text) (rows : List Row)
    (lmap : List (Option Nat)) :
    ∀ (targetLangs : List Text) (fs : Text → List Text),
    generateLocalizedFilesFS ccPath ccName rows lmap fs targetLangs (ccPath ++ '/' :: ccName)
      = fs (ccPath ++ '/' :: ccName) := by
  intro targetLangs
  induction targetLangs with
  | nil => intro fs; rfl
  | cons lang rest ih =>
    intro fs
    rw [generateLocalizedFilesFS, ih]
    rw [writeFile, if_neg (source_path_ne_target_path ccPath ccName lang)]

/-- Claim C7: the source (template) document is never mutated.  The matcher
only reads the element texts stored at the source path, and every write of
the variant generator targets a freshly derived target path, never the source
path: after a whole run, the file system at the source path is unchanged. -/
theorem source_document_never_mutated (fs : Text → List Text)
    (ccPath ccName sourceLang : Text) (targetLangs : List Text) (rows : List Row) :
    (runLocalization fs ccPath ccName sourceLang targetLangs rows).1
        (ccPath ++ '/' :: ccName)
      = fs (ccPath ++ '/' :: ccName) :=
  generateLocalizedFilesFS_source_fixed ccPath ccName rows _ targetLangs fs

/-! ### Determinism: claim C6 -/

/-- Claim C6: the matcher is deterministic — two runs on the same element
texts in the same enumeration order, the same rows in the same row order and
the same source language return identical LayerMaps and unmatched lists. -/
theorem matcher_deterministic (layerTexts1 layerTexts2 : List Text)
    (rows1 rows2 : List Row) (lang1 lang2 : Text)
    (hL : layerTexts1 = layerTexts2) (hR : rows1 = rows2) (hS : lang1 = lang2) :
    mapTextLayers layerTexts1 rows1 lang1 = mapTextLayers layerTexts2 rows2 lang2 := by
  rw [hL, hR, hS]

/-- Witness for `matcher_deterministic` at a concrete input. -/
theorem matcher_deterministic_witness :
    mapTextLayers [['a']] [⟨fun _ => ['a']⟩] ['e'] = mapTextLayers [['a']] [⟨fun _ => ['a']⟩] ['e'] :=
  matcher_deterministic [['a']] [['a']] [⟨fun _ => ['a']⟩] [⟨fun _ => ['a']⟩] ['e'] ['e']
    rfl rfl rfl

/-! ### Completeness bound: claim C4 -/

theorem mapTextLayersGo_length (sourceLang : Text) (rows : List Row) :
    ∀ pool : List (Nat × Text),
    (mapTextLayersGo sourceLang pool rows).1.length = rows.length := by
  induction rows with
  | nil => intro pool; rfl
  | cons row rest ih =>
    intro pool
    simp only [mapTextLayersGo]
    cases h : (findMatchingTextLayer pool (normalize (row.cell sourceLang))).1 with
    | none => simp [h, ih]
    | some idx => simp [h, ih]

theorem mapTextLayersGo_count (sourceLang : Text) (rows : List Row) :
    ∀ pool : List (Nat × Text),
    ((mapTextLayersGo sourceLang pool rows).1.filterMap id).length
      + (mapTextLayersGo sourceLang pool rows).2.length = rows.length := by
  induction rows with
  | nil => intro pool; rfl
  | cons row rest ih =>
    intro pool
    simp only [mapTextLayersGo]
    cases h : (findMatchingTextLayer pool (normalize (row.cell sourceLang))).1 with
    | none =>
      simp only [h, List.filterMap_cons, id, List.length_cons]
      have := ih (findMatchingTextLayer pool (normalize (row.cell sourceLang))).2
      omega
    | some idx =>
      simp only [h, List.filterMap_cons, id, List.length_cons]
      have := ih (findMatchingTextLayer pool (normalize (row.cell sourceLang))).2
      omega

/-- Claim C4: the number of non-sentinel LayerMap entries plus the length of
the unmatched list equals the row count, and the LayerMap's length equals the
row count. -/
theorem layerMap_completeness (layerTexts : List Text) (rows : List Row) (lang : Text) :
    ((mapTextLayers layerTexts rows lang).1.filterMap id).length
      + (mapTextLayers layerTexts rows lang).2.length = rows.length
    ∧ (mapTextLayers layerTexts rows lang).1.length = rows.length :=
  ⟨mapTextLayersGo_count lang rows (layerPoolFrom 0 layerTexts),
   mapTextLayersGo_length lang rows (layerPoolFrom 0 layerTexts)⟩

/-! ### Whitespace invariance: claim C3 -/

/-- Claim C3: the matcher matches an element text against a row's
source-language text if and only if the two are equal after deleting every
whitespace character from both — texts that differ only in whitespace always
match; any non-whitespace difference always causes a non-match. -/
theorem whitespace_invariance (elemText rowText lang : Text) :
    ((mapTextLayers [elemText] [⟨fun _ => rowText⟩] lang).1 = [some 0]
      ↔ normalize elemText = normalize rowText)
    ∧ ((mapTextLayers [elemText] [⟨fun _ => rowText⟩] lang).1 = [none]
      ↔ normalize elemText ≠ normalize rowText) := by
  by_cases h : normalize elemText = normalize rowText <;>
    simp [mapTextLayers, mapTextLayersGo, layerPoolFrom, findMatchingTextLayer, h]

/-! ### Variant generator skips sentinels: claim C5 -/

theorem applyRowWrites_not_written (currentLang : Text) (j : Nat) :
    ∀ (entries : List (Row × Option Nat)) (textLayers : List Text),
    (∀ p ∈ entries, p.2 ≠ some j) →
    (applyRowWrites currentLang textLayers entries)[j]? = textLayers[j]? := by
  intro entries
  induction entries with
  | nil => intro L _; rfl
  | cons p rest ih =>
    intro L hp
    obtain ⟨row, m⟩ := p
    cases m with
    | none =>
      rw [applyRowWrites]
      exact ih L (fun q hq => hp q (List.mem_cons_of_mem _ hq))
    | some i =>
      rw [applyRowWrites, ih _ (fun q hq => hp q (List.mem_cons_of_mem _ hq))]
      have hij : i ≠ j := fun hij =>
        hp (row, some i) (List.mem_cons_self _ _) (by rw [hij])
      exact List.getElem?_set_ne hij

theorem applyRowWrites_all_none (currentLang : Text) :
    ∀ (entries : List (Row × Option Nat)) (textLayers : List Text),
    (∀ p ∈ entries, p.2 = none) →
    applyRowWrites currentLang textLayers entries = textLayers := by
  intro entries
  induction entries with
  | nil => intro L _; rfl
  | cons p rest ih =>
    intro L hp
    obtain ⟨row, m⟩ := p
    cases m with
    | none =>
      rw [applyRowWrites]
      exact ih L (fun q hq => hp q (List.mem_cons_of_mem _ hq))
    | some i =>
      exact absurd (hp (row, some i) (List.mem_cons_self _ _)) (by simp)

/-- Claim C5: the variant generator writes only at element indices held in
non-sentinel LayerMap entries and skips every sentinel row; with an
all-sentinel LayerMap the generated variant's element texts are all unchanged
from the template copy. -/
theorem variant_generator_skips_sentinels (templateTexts : List Text) (rows : List Row)
    (textLayerMap : List (Option Nat)) (lang : Text) :
    (∀ j : Nat, some j ∉ textLayerMap →
      (generateVariantTexts templateTexts rows textLayerMap lang)[j]? = templateTexts[j]?)
    ∧ ((∀ x ∈ textLayerMap, x = none) →
      generateVariantTexts templateTexts rows textLayerMap lang = templateTexts) := by
  constructor
  · intro j hj
    apply applyRowWrites_not_written
    intro p hp hpj
    exact hj (hpj ▸ (List.of_mem_zip hp).2)
  · intro hall
    apply applyRowWrites_all_none
    intro p hp
    exact hall p.2 (List.of_mem_zip hp).2

/-- Witness for `variant_generator_skips_sentinels`: the all-sentinel scenario
on a concrete input (one element, one unmatched row, zero edits). -/
theorem variant_generator_skips_sentinels_witness :
    ((some 0 ∉ ([none] : List (Option Nat)))
      ∧ (generateVariantTexts [['a']] [⟨fun _ => ['b']⟩] [none] ['f'])[0]? = [['a']][0]?)
    ∧ ((∀ x ∈ ([none] : List (Option Nat)), x = none)
      ∧ generateVariantTexts [['a']] [⟨fun _ => ['b']⟩] [none] ['f'] = [['a']]) :=
  ⟨⟨by decide,
    (variant_generator_skips_sentinels [['a']] [⟨fun _ => ['b']⟩] [none] ['f']).1 0 (by decide)⟩,
   ⟨by decide,
    (variant_generator_skips_sentinels [['a']] [⟨fun _ => ['b']⟩] [none] ['f']).2 (by decide)⟩⟩

/-! ### Pool lemmas for the eager matcher -/

theorem findMatchingTextLayer_none_eq (s : Text) :
    ∀ pool : List (Nat × Text),
    (findMatchingTextLayer pool s).1 = none → (findMatchingTextLayer pool s).2 = pool := by
  intro pool
  induction pool with
  | nil => intro _; rfl
  | cons p rest ih =>
    obtain ⟨i, t⟩ := p
    simp only [findMatchingTextLayer]
    by_cases h : t = s
    · simp [h]
    · simp only [if_neg h]
      intro hnone
      rw [ih hnone]

theorem findMatchingTextLayer_some_decomp (s : Text) :
    ∀ (pool : List (Nat × Text)) (i : Nat),
    (findMatchingTextLayer pool s).1 = some i →
    ∃ p1 p2, pool = p1 ++ (i, s) :: p2 ∧ (∀ q ∈ p1, q.2 ≠ s)
      ∧ (findMatchingTextLayer pool s).2 = p1 ++ p2 := by
  intro pool
  induction pool with
  | nil => intro i h; simp [findMatchingTextLayer] at h
  | cons p rest ih =>
    obtain ⟨j, t⟩ := p
    intro i
    simp only [findMatchingTextLayer]
    by_cases h : t = s
    · subst h
      simp only [if_pos rfl]
      intro hsome
      obtain rfl : j = i := by simpa using hsome
      exact ⟨[], rest, rfl, by simp, rfl⟩
    · simp only [if_neg h]
      intro hsome
      obtain ⟨p1, p2, hpool, hne, hrest⟩ := ih i hsome
      exact ⟨(j, t) :: p1, p2, by rw [hpool]; rfl,
        fun q hq => by
          rcases List.mem_cons.mp hq with rfl | hq'
          · exact h
          · exact hne q hq',
        by rw [hrest, List.cons_append]⟩

theorem findMatchingTextLayer_sublist (s : Text) (pool : List (Nat × Text)) :
    List.Sublist (findMatchingTextLayer pool s).2 pool := by
  cases h : (findMatchingTextLayer pool s).1 with
  | none => rw [findMatchingTextLayer_none_eq s pool h]
  | some i =>
    obtain ⟨p1, p2, hpool, _, hrest⟩ := findMatchingTextLayer_some_decomp s pool i h
    rw [hrest, hpool]
    exact (List.sublist_cons_self (i, s) p2).append_left p1

theorem mapTextLayersGo_claims_mem (sourceLang : Text) (rows : List Row) :
    ∀ (pool : List (Nat × Text)) (e : Nat),
    e ∈ (mapTextLayersGo sourceLang pool rows).1.filterMap id →
    e ∈ pool.map Prod.fst := by
  induction rows with
  | nil => intro pool e h; simp [mapTextLayersGo] at h
  | cons row rest ih =>
    intro pool e
    simp only [mapTextLayersGo]
    cases hfm : (findMatchingTextLayer pool (normalize (row.cell sourceLang))).1 with
    | none =>
      simp only [hfm, List.filterMap_cons, id]
      intro h
      have h2 := ih _ e h
      rw [findMatchingTextLayer_none_eq _ _ hfm] at h2
      exact h2
    | some idx =>
      simp only [hfm, List.filterMap_cons, id]
      intro h
      obtain ⟨p1, p2, hpool, _, hrest⟩ :=
        findMatchingTextLayer_some_decomp _ pool idx hfm
      rcases List.mem_cons.mp h with rfl | h'
      · rw [hpool]
        exact List.mem_map.mpr ⟨(e, normalize (row.cell sourceLang)), by simp, rfl⟩
      · have h2 := ih _ e h'
        rw [hrest] at h2
        have hsub : List.Sublist ((p1 ++ p2).map Prod.fst) (pool.map Prod.fst) := by
          rw [hpool]
          exact ((List.sublist_cons_self (idx, normalize (row.cell sourceLang)) p2).append_left
            p1).map Prod.fst
        exact hsub.subset h2

theorem mapTextLayersGo_claims_nodup (sourceLang : Text) (rows : List Row) :
    ∀ pool : List (Nat × Text), (pool.map Prod.fst).Nodup →
    ((mapTextLayersGo sourceLang pool rows).1.filterMap id).Nodup := by
  induction rows with
  | nil => intro pool _; simp [mapTextLayersGo]
  | cons row rest ih =>
    intro pool hnd
    simp only [mapTextLayersGo]
    cases hfm : (findMatchingTextLayer pool (normalize (row.cell sourceLang))).1 with
    | none =>
      simp only [hfm, List.filterMap_cons, id]
      rw [findMatchingTextLayer_none_eq _ _ hfm]
      exact ih pool hnd
    | some idx =>
      simp only [hfm, List.filterMap_cons, id]
      obtain ⟨p1, p2, hpool, _, hrest⟩ :=
        findMatchingTextLayer_some_decomp _ pool idx hfm
      have hnd2 : ((p1 ++ p2).map Prod.fst).Nodup ∧ idx ∉ (p1 ++ p2).map Prod.fst := by
        rw [hpool, List.map_append, List.map_cons] at hnd
        have hmid := List.nodup_middle.mp hnd
        rw [List.nodup_cons] at hmid
        rw [List.map_append]
        exact ⟨hmid.2, hmid.1⟩
      refine List.Pairwise.cons ?_ ?_
      · intro b hb hbe
        subst hbe
        have hmem := mapTextLayersGo_claims_mem sourceLang rest
          (findMatchingTextLayer pool (normalize (row.cell sourceLang))).2 idx hb
        rw [hrest] at hmem
        exact hnd2.2 hmem
      · rw [hrest]
        exact ih _ hnd2.1

theorem nodup_filterMap_id_inj :
    ∀ (l : List (Option Nat)) (i j e : Nat), (l.filterMap id).Nodup →
    l[i]? = some (some e) → l[j]? = some (some e) → i = j := by
  intro l
  induction l with
  | nil => intro i j e _ hi; simp at hi
  | cons x xs ih =>
    intro i j e hnd hi hj
    cases i with
    | zero =>
      cases j with
      | zero => rfl
      | succ j' =>
        exfalso
        have hx : x = some e := by simpa using hi
        have hmem : e ∈ xs.filterMap id :=
          List.mem_filterMap.mpr ⟨some e, List.getElem?_mem (by simpa using hj), rfl⟩
        rw [hx] at hnd
        simp only [List.filterMap_cons, id, List.nodup_cons] at hnd
        exact hnd.1 hmem
    | succ i' =>
      cases j with
      | zero =>
        exfalso
        have hx : x = some e := by simpa using hj
        have hmem : e ∈ xs.filterMap id :=
          List.mem_filterMap.mpr ⟨some e, List.getElem?_mem (by simpa using hi), rfl⟩
        rw [hx] at hnd
        simp only [List.filterMap_cons, id, List.nodup_cons] at hnd
        exact hnd.1 hmem
      | succ j' =>
        have hnd2 : (xs.filterMap id).Nodup := by
          cases x with
          | none => simpa [List.filterMap_cons] using hnd
          | some a =>
            simp only [List.filterMap_cons, id] at hnd
            exact hnd.of_cons
        have := ih i' j' e hnd2 (by simpa using hi) (by simpa using hj)
        omega

theorem mem_layerPoolFrom :
    ∀ (lts : List Text) (n j : Nat) (t : Text),
    (j, t) ∈ layerPoolFrom n lts ↔
      ∃ k, j = n + k ∧ ∃ u, lts[k]? = some u ∧ t = normalize u := by
  intro lts
  induction lts with
  | nil => simp [layerPoolFrom]
  | cons v rest ih =>
    intro n j t
    simp only [layerPoolFrom, List.mem_cons, ih (n + 1)]
    constructor
    · rintro (h | ⟨k, hk, u, hu, ht⟩)
      · obtain ⟨rfl, rfl⟩ : j = n ∧ t = normalize v := by
          simpa [Prod.ext_iff] using h
        exact ⟨0, by omega, v, by simp, rfl⟩
      · exact ⟨k + 1, by omega, u, by simpa using hu, ht⟩
    · rintro ⟨k, hk, u, hu, ht⟩
      cases k with
      | zero =>
        left
        obtain rfl : v = u := by simpa using hu
        subst ht
        obtain rfl : j = n := by omega
        rfl
      | succ k' =>
        right
        exact ⟨k', by omega, u, by simpa using hu, ht⟩

theorem mem_layerPool_zero {lts : List Text} {j : Nat} {t : Text}
    (h : (j, t) ∈ layerPoolFrom 0 lts) :
    ∃ u, lts[j]? = some u ∧ t = normalize u := by
  rw [mem_layerPoolFrom] at h
  obtain ⟨k, hk, u, hu, ht⟩ := h
  obtain rfl : j = k := by omega
  exact ⟨u, hu, ht⟩

theorem layerPoolFrom_fst_pairwise (lts : List Text) :
    ∀ n, ((layerPoolFrom n lts).map Prod.fst).Pairwise (· < ·) := by
  induction lts with
  | nil => intro n; simp [layerPoolFrom]
  | cons v rest ih =>
    intro n
    simp only [layerPoolFrom, List.map_cons]
    refine List.Pairwise.cons ?_ (ih (n + 1))
    intro b hb
    obtain ⟨⟨j, t⟩, hmem, rfl⟩ := List.mem_map.mp hb
    rw [mem_layerPoolFrom] at hmem
    obtain ⟨k, hk, -⟩ := hmem
    simp only []
    omega

/-! ### Injectivity: claim C1 -/

/-- Claim C1: the LayerMap returned by the matcher is injective on
non-sentinel entries — no two distinct row indices map to the same element
index, because each pool candidate is removed when claimed. -/
theorem layerMap_injective (layerTexts : List Text) (rows : List Row) (lang : Text)
    (i j e : Nat)
    (hi : (mapTextLayers layerTexts rows lang).1[i]? = some (some e))
    (hj : (mapTextLayers layerTexts rows lang).1[j]? = some (some e)) :
    i = j := by
  have hnd : ((mapTextLayers layerTexts rows lang).1.filterMap id).Nodup :=
    mapTextLayersGo_claims_nodup lang rows (layerPoolFrom 0 layerTexts)
      ((layerPoolFrom_fst_pairwise layerTexts 0).imp Nat.ne_of_lt)
  exact nodup_filterMap_id_inj _ i j e hnd hi hj

/-- Witness for `layerMap_injective`: its hypotheses are satisfiable. -/
theorem layerMap_injective_witness :
    ((mapTextLayers [['a']] [⟨fun _ => ['a']⟩] ['e']).1[0]? = some (some 0))
    ∧ (0 : Nat) = 0 :=
  ⟨by decide,
   layerMap_injective [['a']] [⟨fun _ => ['a']⟩] ['e'] 0 0 0 (by decide) (by decide)⟩

/-! ### Duplicate row priority: claim C2 -/

theorem mapTextLayersGo_sound (sourceLang : Text) (rows : List Row) :
    ∀ (pool : List (Nat × Text)) (j e : Nat) (rj : Row),
    (mapTextLayersGo sourceLang pool rows).1[j]? = some (some e) →
    rows[j]? = some rj →
    (e, normalize (rj.cell sourceLang)) ∈ pool := by
  induction rows with
  | nil => intro pool j e rj h _; simp [mapTextLayersGo] at h
  | cons row rest ih =>
    intro pool j e rj hm hr
    cases j with
    | zero =>
      obtain rfl : row = rj := by simpa using hr
      simp only [mapTextLayersGo] at hm
      cases hfm : (findMatchingTextLayer pool (normalize (row.cell sourceLang))).1 with
      | none => rw [hfm] at hm; simp at hm
      | some idx =>
        rw [hfm] at hm
        obtain rfl : idx = e := by simpa using hm
        obtain ⟨p1, p2, hpool, -, -⟩ :=
          findMatchingTextLayer_some_decomp _ pool idx hfm
        rw [hpool]
        simp
    | succ j' =>
      simp only [mapTextLayersGo] at hm
      have hr' : rest[j']? = some rj := by simpa using hr
      cases hfm : (findMatchingTextLayer pool (normalize (row.cell sourceLang))).1 with
      | none =>
        rw [hfm] at hm
        have hm' := ih _ j' e rj (by simpa using hm) hr'
        exact (findMatchingTextLayer_sublist _ pool).subset hm'
      | some idx =>
        rw [hfm] at hm
        have hm' := ih _ j' e rj (by simpa using hm) hr'
        exact (findMatchingTextLayer_sublist _ pool).subset hm'

theorem findMatchingTextLayer_none_all (s : Text) :
    ∀ pool : List (Nat × Text),
    (findMatchingTextLayer pool s).1 = none → ∀ q ∈ pool, q.2 ≠ s := by
  intro pool
  induction pool with
  | nil => intro _ q hq; simp at hq
  | cons p rest ih =>
    obtain ⟨i, t⟩ := p
    simp only [findMatchingTextLayer]
    by_cases h : t = s
    · simp [h]
    · simp only [if_neg h]
      intro hnone q hq
      rcases List.mem_cons.mp hq with rfl | hq'
      · exact h
      · exact ih hnone q hq'

theorem mapTextLayersGo_cons_fst (sourceLang : Text) (pool : List (Nat × Text))
    (row : Row) (rest : List Row) :
    (mapTextLayersGo sourceLang pool (row :: rest)).1
      = (findMatchingTextLayer pool (normalize (row.cell sourceLang))).1
        :: (mapTextLayersGo sourceLang
            (findMatchingTextLayer pool (normalize (row.cell sourceLang))).2 rest).1 := by
  simp only [mapTextLayersGo]
  cases (findMatchingTextLayer pool (normalize (row.cell sourceLang))).1 <;> rfl

theorem mapTextLayersGo_sentinel_complete (sourceLang : Text) :
    ∀ (rows : List Row) (pool : List (Nat × Text)) (j : Nat) (rj : Row),
    rows[j]? = some rj →
    (mapTextLayersGo sourceLang pool rows).1[j]? = some none →
    ∀ q ∈ pool, q.2 = normalize (rj.cell sourceLang) →
    ∃ i, i < j ∧ (mapTextLayersGo sourceLang pool rows).1[i]? = some (some q.1) := by
  intro rows
  induction rows with
  | nil => intro pool j rj hrj; simp at hrj
  | cons row rest ih =>
    intro pool j rj hrj hMj q hq hqk
    rw [mapTextLayersGo_cons_fst] at hMj
    cases j with
    | zero =>
      exfalso
      obtain rfl : row = rj := by simpa using hrj
      have hhead : (findMatchingTextLayer pool (normalize (row.cell sourceLang))).1 = none := by
        simpa using hMj
      exact findMatchingTextLayer_none_all _ pool hhead q hq hqk
    | succ j' =>
      have hrj' : rest[j']? = some rj := by simpa using hrj
      have hMj' : (mapTextLayersGo sourceLang
          (findMatchingTextLayer pool (normalize (row.cell sourceLang))).2 rest).1[j']?
          = some none := by simpa using hMj
      cases hA : (findMatchingTextLayer pool (normalize (row.cell sourceLang))).1 with
      | none =>
        have hpool' : (findMatchingTextLayer pool (normalize (row.cell sourceLang))).2 = pool :=
          findMatchingTextLayer_none_eq _ _ hA
        rw [hpool'] at hMj'
        obtain ⟨i, hi, hMi⟩ := ih pool j' rj hrj' hMj' q hq hqk
        refine ⟨i + 1, by omega, ?_⟩
        rw [mapTextLayersGo_cons_fst, hpool']
        simpa using hMi
      | some idx =>
        by_cases hqmid : q.1 = idx
        · refine ⟨0, by omega, ?_⟩
          rw [mapTextLayersGo_cons_fst, hA, hqmid]
          simp
        · obtain ⟨p1, p2, hpool, -, hrest⟩ :=
            findMatchingTextLayer_some_decomp _ pool idx hA
          have hq' : q ∈ (findMatchingTextLayer pool (normalize (row.cell sourceLang))).2 := by
            rw [hrest]
            rw [hpool] at hq
            rcases List.mem_append.mp hq with h1 | h2
            · exact List.mem_append.mpr (Or.inl h1)
            · rcases List.mem_cons.mp h2 with he | hp2
              · exact absurd (congrArg Prod.fst he) (by simpa using hqmid)
              · exact List.mem_append.mpr (Or.inr hp2)
          obtain ⟨i, hi, hMi⟩ := ih _ j' rj hrj' hMj' q hq' hqk
          refine ⟨i + 1, by omega, ?_⟩
          rw [mapTextLayersGo_cons_fst]
          simpa using hMi

theorem mapTextLayersGo_first_available (sourceLang : Text) :
    ∀ (rows : List Row) (pool : List (Nat × Text)) (j : Nat) (rj : Row),
    (pool.map Prod.fst).Pairwise (· < ·) →
    rows[j]? = some rj →
    (∃ q ∈ pool, q.2 = normalize (rj.cell sourceLang)
      ∧ ∀ i, i < j → (mapTextLayersGo sourceLang pool rows).1[i]? ≠ some (some q.1)) →
    ∃ p0 ∈ pool, (mapTextLayersGo sourceLang pool rows).1[j]? = some (some p0.1)
      ∧ p0.2 = normalize (rj.cell sourceLang)
      ∧ (∀ i, i < j → (mapTextLayersGo sourceLang pool rows).1[i]? ≠ some (some p0.1))
      ∧ (∀ q ∈ pool, q.2 = normalize (rj.cell sourceLang) →
          (∀ i, i < j → (mapTextLayersGo sourceLang pool rows).1[i]? ≠ some (some q.1)) →
          p0.1 ≤ q.1) := by
  intro rows
  induction rows with
  | nil => intro pool j rj _ hrj; simp at hrj
  | cons row rest ih =>
    intro pool j rj hpw hrj hex
    cases j with
    | zero =>
      obtain rfl : row = rj := by simpa using hrj
      obtain ⟨q, hq, hqk, -⟩ := hex
      cases hA : (findMatchingTextLayer pool (normalize (row.cell sourceLang))).1 with
      | none => exact absurd hqk (findMatchingTextLayer_none_all _ pool hA q hq)
      | some idx =>
        obtain ⟨p1, p2, hpool, hne, -⟩ :=
          findMatchingTextLayer_some_decomp _ pool idx hA
        refine ⟨(idx, normalize (row.cell sourceLang)), by rw [hpool]; simp,
          by rw [mapTextLayersGo_cons_fst, hA]; simp, rfl,
          fun i hi => absurd hi (Nat.not_lt_zero i), ?_⟩
        intro q' hq' hq'k _
        rw [hpool] at hq'
        rcases List.mem_append.mp hq' with h1 | h2
        · exact absurd hq'k (hne q' h1)
        · rcases List.mem_cons.mp h2 with he | hp2
          · have hfst : q'.1 = idx := by rw [he]
            omega
          · have hpw2 := hpw
            rw [hpool, List.map_append, List.map_cons] at hpw2
            obtain ⟨-, hmidp2, -⟩ := List.pairwise_append.mp hpw2
            have := (List.pairwise_cons.mp hmidp2).1 q'.1
              (List.mem_map.mpr ⟨q', hp2, rfl⟩)
            omega
    | succ j' =>
      have hrj' : rest[j']? = some rj := by simpa using hrj
      cases hA : (findMatchingTextLayer pool (normalize (row.cell sourceLang))).1 with
      | none =>
        have hpool' : (findMatchingTextLayer pool (normalize (row.cell sourceLang))).2 = pool :=
          findMatchingTextLayer_none_eq _ _ hA
        obtain ⟨q, hq, hqk, hqun⟩ := hex
        have hex' : ∃ q2 ∈ pool, q2.2 = normalize (rj.cell sourceLang)
            ∧ ∀ i, i < j' →
              (mapTextLayersGo sourceLang pool rest).1[i]? ≠ some (some q2.1) := by
          refine ⟨q, hq, hqk, ?_⟩
          intro i hi hMi
          exact hqun (i + 1) (by omega)
            (by rw [mapTextLayersGo_cons_fst, hpool']; simpa using hMi)
        obtain ⟨p0, hp0, hMj', hp0k, hp0un, hmin⟩ := ih pool j' rj hpw hrj' hex'
        refine ⟨p0, hp0, ?_, hp0k, ?_, ?_⟩
        · rw [mapTextLayersGo_cons_fst, hpool']
          simpa using hMj'
        · intro i hi
          cases i with
          | zero =>
            rw [mapTextLayersGo_cons_fst, hA]
            simp
          | succ i' =>
            intro hMi
            refine hp0un i' (by omega) ?_
            rw [mapTextLayersGo_cons_fst, hpool'] at hMi
            simpa using hMi
        · intro q' hq' hq'k hq'un
          refine hmin q' hq' hq'k ?_
          intro i hi hMi
          exact hq'un (i + 1) (by omega)
            (by rw [mapTextLayersGo_cons_fst, hpool']; simpa using hMi)
      | some idx =>
        obtain ⟨p1, p2, hpool, hne, hrest⟩ :=
          findMatchingTextLayer_some_decomp _ pool idx hA
        have hsubp : List.Sublist (p1 ++ p2) pool := by
          rw [hpool]
          exact (List.sublist_cons_self _ p2).append_left p1
        have hpw' : ((p1 ++ p2).map Prod.fst).Pairwise (· < ·) :=
          List.Pairwise.sublist (hsubp.map Prod.fst) hpw
        have hidxout : idx ∉ (p1 ++ p2).map Prod.fst := by
          have hnodup : (pool.map Prod.fst).Nodup := hpw.imp Nat.ne_of_lt
          rw [hpool, List.map_append, List.map_cons] at hnodup
          have hmid := (List.nodup_cons.mp (List.nodup_middle.mp hnodup)).1
          rw [List.map_append]
          exact hmid
        have hq0 : (mapTextLayersGo sourceLang pool (row :: rest)).1[0]?
            = some (some idx) := by
          rw [mapTextLayersGo_cons_fst, hA]; simp
        obtain ⟨q, hq, hqk, hqun⟩ := hex
        have hqne : q.1 ≠ idx := by
          intro he
          exact hqun 0 (Nat.succ_pos j') (hq0.trans (by rw [he]))
        have hqmem : q ∈ p1 ++ p2 := by
          rw [hpool] at hq
          rcases List.mem_append.mp hq with h1 | h2
          · exact List.mem_append.mpr (Or.inl h1)
          · rcases List.mem_cons.mp h2 with he | hp2
            · exact absurd (congrArg Prod.fst he) (by simpa using hqne)
            · exact List.mem_append.mpr (Or.inr hp2)
        have hex' : ∃ q2 ∈ p1 ++ p2, q2.2 = normalize (rj.cell sourceLang)
            ∧ ∀ i, i < j' →
              (mapTextLayersGo sourceLang (p1 ++ p2) rest).1[i]? ≠ some (some q2.1) := by
          refine ⟨q, hqmem, hqk, ?_⟩
          intro i hi hMi
          exact hqun (i + 1) (by omega)
            (by rw [mapTextLayersGo_cons_fst, hrest]; simpa using hMi)
        obtain ⟨p0, hp0, hMj', hp0k, hp0un, hmin⟩ := ih (p1 ++ p2) j' rj hpw' hrj' hex'
        have hp0pool : p0 ∈ pool := hsubp.subset hp0
        have hp0ne : p0.1 ≠ idx := by
          intro he
          exact hidxout (he ▸ List.mem_map.mpr ⟨p0, hp0, rfl⟩)
        refine ⟨p0, hp0pool, ?_, hp0k, ?_, ?_⟩
        · rw [mapTextLayersGo_cons_fst, hrest]
          simpa using hMj'
        · intro i hi
          cases i with
          | zero =>
            rw [hq0]
            intro hcon
            have hei : idx = p0.1 := by simpa using hcon
            exact hp0ne hei.symm
          | succ i' =>
            intro hMi
            refine hp0un i' (by omega) ?_
            rw [mapTextLayersGo_cons_fst, hrest] at hMi
            simpa using hMi
        · intro q' hq'' hq''k hq''un
          have hq''ne : q'.1 ≠ idx := by
            intro he
            exact hq''un 0 (Nat.succ_pos j') (hq0.trans (by rw [he]))
          have hq''mem : q' ∈ p1 ++ p2 := by
            rw [hpool] at hq''
            rcases List.mem_append.mp hq'' with h1 | h2
            · exact List.mem_append.mpr (Or.inl h1)
            · rcases List.mem_cons.mp h2 with he | hp2
              · exact absurd (congrArg Prod.fst he) (by simpa using hq''ne)
              · exact List.mem_append.mpr (Or.inr hp2)
          refine hmin q' hq''mem hq''k ?_
          intro i hi hMi
          exact hq''un (i + 1) (by omega)
            (by rw [mapTextLayersGo_cons_fst, hrest]; simpa using hMi)

/-- Claim C2: every row claims the first still-available element whose
normalized text equals the row's normalized source text whenever any such
element remains — so with duplicate normalized text among rows, the earliest
row claims the first available element, and each later row with the same
text claims a different remaining element with identical normalized text if
one exists; a row receives the no-match sentinel only when every element
with its normalized text was already claimed by an earlier row. -/
theorem duplicate_rows_priority (layerTexts : List Text) (rows : List Row) (lang : Text)
    (j : Nat) (rj : Row) (hrj : rows[j]? = some rj) :
    ((∃ e u, layerTexts[e]? = some u ∧ normalize u = normalize (rj.cell lang)
        ∧ ∀ i, i < j → (mapTextLayers layerTexts rows lang).1[i]? ≠ some (some e)) →
      ∃ e0 u0, (mapTextLayers layerTexts rows lang).1[j]? = some (some e0)
        ∧ layerTexts[e0]? = some u0 ∧ normalize u0 = normalize (rj.cell lang)
        ∧ (∀ i, i < j → (mapTextLayers layerTexts rows lang).1[i]? ≠ some (some e0))
        ∧ ∀ e u, layerTexts[e]? = some u → normalize u = normalize (rj.cell lang) →
            (∀ i, i < j → (mapTextLayers layerTexts rows lang).1[i]? ≠ some (some e)) →
            e0 ≤ e)
    ∧ ((mapTextLayers layerTexts rows lang).1[j]? = some none →
        ∀ e u, layerTexts[e]? = some u → normalize u = normalize (rj.cell lang) →
          ∃ i, i < j ∧ (mapTextLayers layerTexts rows lang).1[i]? = some (some e)) := by
  constructor
  · rintro ⟨e, u, hu, huk, hun⟩
    have hex : ∃ q ∈ layerPoolFrom 0 layerTexts, q.2 = normalize (rj.cell lang)
        ∧ ∀ i, i < j →
          (mapTextLayersGo lang (layerPoolFrom 0 layerTexts) rows).1[i]?
            ≠ some (some q.1) := by
      refine ⟨(e, normalize u), ?_, huk, hun⟩
      rw [mem_layerPoolFrom]
      exact ⟨e, by omega, u, hu, rfl⟩
    obtain ⟨p0, hp0, hMj, hp0k, hp0un, hmin⟩ :=
      mapTextLayersGo_first_available lang rows (layerPoolFrom 0 layerTexts) j rj
        (layerPoolFrom_fst_pairwise layerTexts 0) hrj hex
    obtain ⟨u0, hu0, htu0⟩ := mem_layerPool_zero hp0
    refine ⟨p0.1, u0, hMj, hu0, by rw [← htu0]; exact hp0k, hp0un, ?_⟩
    intro e' u' hu' hu'k hun'
    refine hmin (e', normalize u') ?_ hu'k hun'
    rw [mem_layerPoolFrom]
    exact ⟨e', by omega, u', hu', rfl⟩
  · intro hMj e u hu huk
    refine mapTextLayersGo_sentinel_complete lang rows (layerPoolFrom 0 layerTexts) j rj
      hrj hMj (e, normalize u) ?_ huk
    rw [mem_layerPoolFrom]
    exact ⟨e, by omega, u, hu, rfl⟩

/-- Witness for `duplicate_rows_priority`: the claim's scenario — row text
`"Hello"` appears twice among rows but matches only one element.  Part (a)
applied at the first row shows it claims element 0, the first available
matching element; part (b) applied at the second row shows its sentinel is
justified because the only matching element was already claimed by an
earlier row; the final conjunct decides the whole scenario (LayerMap
`[some 0, none]`, unmatched `["Hello"]`). -/
theorem duplicate_rows_priority_witness :
    (∃ e0 u0, (mapTextLayers ["Hello".toList]
          [⟨fun _ => "Hello".toList⟩, ⟨fun _ => "Hello".toList⟩] ['e']).1[0]?
            = some (some e0)
        ∧ ["Hello".toList][e0]? = some u0
        ∧ normalize u0 = normalize ((⟨fun _ => "Hello".toList⟩ : Row).cell ['e'])
        ∧ (∀ i, i < 0 → (mapTextLayers ["Hello".toList]
            [⟨fun _ => "Hello".toList⟩, ⟨fun _ => "Hello".toList⟩] ['e']).1[i]?
              ≠ some (some e0))
        ∧ ∀ e u, ["Hello".toList][e]? = some u →
            normalize u = normalize ((⟨fun _ => "Hello".toList⟩ : Row).cell ['e']) →
            (∀ i, i < 0 → (mapTextLayers ["Hello".toList]
              [⟨fun _ => "Hello".toList⟩, ⟨fun _ => "Hello".toList⟩] ['e']).1[i]?
                ≠ some (some e)) →
            e0 ≤ e)
    ∧ (∃ i, i < 1 ∧ (mapTextLayers ["Hello".toList]
        [⟨fun _ => "Hello".toList⟩, ⟨fun _ => "Hello".toList⟩] ['e']).1[i]?
          = some (some 0))
    ∧ mapTextLayers ["Hello".toList]
        [⟨fun _ => "Hello".toList⟩, ⟨fun _ => "Hello".toList⟩] ['e']
      = ([some 0, none], ["Hello".toList]) :=
  ⟨(duplicate_rows_priority ["Hello".toList]
      [⟨fun _ => "Hello".toList⟩, ⟨fun _ => "Hello".toList⟩] ['e'] 0
      ⟨fun _ => "Hello".toList⟩ rfl).1
    ⟨0, "Hello".toList, rfl, rfl, fun i hi => absurd hi (Nat.not_lt_zero i)⟩,
   (duplicate_rows_priority ["Hello".toList]
      [⟨fun _ => "Hello".toList⟩, ⟨fun _ => "Hello".toList⟩] ['e'] 1
      ⟨fun _ => "Hello".toList⟩ rfl).2
    (by decide) 0 "Hello".toList rfl rfl,
   by decide⟩

/-! ### Lazy (part_000) vs eager (PictureList_Import.jsx) matcher: claim C9 -/

theorem findIdxFrom_none_intro (s : Text) :
    ∀ (L : List Text) (n : Nat),
    (∀ v ∈ L, normalize v ≠ normalize s) → findIdxFrom s n L = none := by
  intro L
  induction L with
  | nil => intro n _; rfl
  | cons t rest ih =>
    intro n h
    rw [findIdxFrom, if_neg (h t (List.mem_cons_self t rest))]
    exact ih (n + 1) (fun v hv => h v (List.mem_cons_of_mem _ hv))

theorem findIdxFrom_some_intro (s : Text) :
    ∀ (L : List Text) (n i : Nat) (v : Text),
    L[i]? = some v → normalize v = normalize s →
    (∀ j w, j < i → L[j]? = some w → normalize w ≠ normalize s) →
    findIdxFrom s n L = some (n + i) := by
  intro L
  induction L with
  | nil => intro n i v hv; simp at hv
  | cons t rest ih =>
    intro n i v hv hnv hbefore
    cases i with
    | zero =>
      obtain rfl : t = v := by simpa using hv
      rw [findIdxFrom, if_pos hnv, Nat.add_zero]
    | succ i' =>
      have ht : normalize t ≠ normalize s :=
        hbefore 0 t (Nat.succ_pos i') (by simp)
      rw [findIdxFrom, if_neg ht]
      rw [ih (n + 1) i' v (by simpa using hv) hnv
        (fun j w hj hw => hbefore (j + 1) w (by omega) (by simpa using hw))]
      congr 1
      omega

theorem findMatch_lazy_eq_eager (searchText : Text) (pool : List (Nat × Text))
    (L T : List Text)
    (hsub : List.Sublist pool (layerPoolFrom 0 T))
    (hlen : L.length = T.length)
    (hun : ∀ p ∈ pool, L[p.1]? = T[p.1]?)
    (hcl : ∀ i v, L[i]? = some v → i ∉ pool.map Prod.fst →
      normalize v ≠ normalize searchText) :
    findMatchingTextLayerB L searchText
      = (findMatchingTextLayer pool (normalize searchText)).1 := by
  have hpwlt : (pool.map Prod.fst).Pairwise (· < ·) :=
    List.Pairwise.sublist (hsub.map Prod.fst) (layerPoolFrom_fst_pairwise T 0)
  cases hA : (findMatchingTextLayer pool (normalize searchText)).1 with
  | none =>
    have hall := findMatchingTextLayer_none_all _ pool hA
    rw [findMatchingTextLayerB]
    apply findIdxFrom_none_intro
    intro v hv
    obtain ⟨iv, hiv⟩ := List.getElem?_of_mem hv
    by_cases hmem : iv ∈ pool.map Prod.fst
    · obtain ⟨⟨j, t⟩, hq, hj⟩ := List.mem_map.mp hmem
      obtain rfl : j = iv := hj
      obtain ⟨u, hu, ht⟩ := mem_layerPool_zero (hsub.subset hq)
      have hL := hun (j, t) hq
      rw [hiv, hu] at hL
      obtain rfl : v = u := by simpa using hL
      rw [← ht]
      exact hall (j, t) hq
    · exact hcl iv v hiv hmem
  | some idx =>
    obtain ⟨p1, p2, hpool, hne, -⟩ :=
      findMatchingTextLayer_some_decomp _ pool idx hA
    have hidxmem : (idx, normalize searchText) ∈ pool := by
      rw [hpool]; simp
    obtain ⟨u, hu, htu⟩ := mem_layerPool_zero (hsub.subset hidxmem)
    have hLidx : L[idx]? = some u := by
      rw [hun (idx, normalize searchText) hidxmem, hu]
    have hbefore : ∀ j w, j < idx → L[j]? = some w →
        normalize w ≠ normalize searchText := by
      intro j w hj hw
      by_cases hmem : j ∈ pool.map Prod.fst
      · obtain ⟨⟨jq, t⟩, hq, hjq⟩ := List.mem_map.mp hmem
        obtain rfl : jq = j := hjq
        obtain ⟨u', hu', ht'⟩ := mem_layerPool_zero (hsub.subset hq)
        have hL := hun (jq, t) hq
        rw [hw, hu'] at hL
        obtain rfl : w = u' := by simpa using hL
        rw [← ht']
        have hq1 : (jq, t) ∈ p1 := by
          rw [hpool] at hq
          rcases List.mem_append.mp hq with h1 | h2
          · exact h1
          · exfalso
            rcases List.mem_cons.mp h2 with he | hp2
            · have : jq = idx := by
                have := congrArg Prod.fst he
                simpa using this
              omega
            · have hpw2 := hpwlt
              rw [hpool, List.map_append, List.map_cons] at hpw2
              obtain ⟨-, hp2pw, -⟩ := List.pairwise_append.mp hpw2
              have := (List.pairwise_cons.mp hp2pw).1 jq
                (List.mem_map.mpr ⟨(jq, t), hp2, rfl⟩)
              omega
        exact hne (jq, t) hq1
      · exact hcl j w hw hmem
    rw [findMatchingTextLayerB]
    have := findIdxFrom_some_intro searchText L 0 idx u hLidx htu.symm hbefore
    simpa using this

theorem buildAndApplyB_snd (sourceLang currentLang : Text) :
    ∀ (rows : List Row) (L : List Text),
    (buildAndApplyB sourceLang currentLang L rows).2
      = applyRowWrites currentLang L
        (rows.zip (buildAndApplyB sourceLang currentLang L rows).1) := by
  intro rows
  induction rows with
  | nil => intro L; rfl
  | cons row rest ih =>
    intro L
    simp only [buildAndApplyB]
    cases hB : findMatchingTextLayerB L (row.cell sourceLang) with
    | none =>
      simp only [hB, List.zip_cons_cons, applyRowWrites]
      exact ih L
    | some i =>
      simp only [hB, List.zip_cons_cons, applyRowWrites]
      exact ih (L.set i (row.cell currentLang))

theorem buildAndApplyB_fst_eq_eager (sourceLang firstLang : Text) (T : List Text) :
    ∀ (rows : List Row) (pool : List (Nat × Text)) (L : List Text),
    List.Sublist pool (layerPoolFrom 0 T) →
    L.length = T.length →
    (∀ p ∈ pool, L[p.1]? = T[p.1]?) →
    (∀ i v, L[i]? = some v → i ∉ pool.map Prod.fst →
      ∀ r ∈ rows, normalize v ≠ normalize (r.cell sourceLang)) →
    rows.Pairwise
      (fun r1 r2 => normalize (r1.cell firstLang) ≠ normalize (r2.cell sourceLang)) →
    (buildAndApplyB sourceLang firstLang L rows).1
      = (mapTextLayersGo sourceLang pool rows).1 := by
  intro rows
  induction rows with
  | nil => intro pool L _ _ _ _ _; rfl
  | cons row rest ih =>
    intro pool L hsub hlen hun hcl hpw
    have hpwlt : (pool.map Prod.fst).Pairwise (· < ·) :=
      List.Pairwise.sublist (hsub.map Prod.fst) (layerPoolFrom_fst_pairwise T 0)
    have hfind : findMatchingTextLayerB L (row.cell sourceLang)
        = (findMatchingTextLayer pool (normalize (row.cell sourceLang))).1 :=
      findMatch_lazy_eq_eager (row.cell sourceLang) pool L T hsub hlen hun
        (fun i v hv hi => hcl i v hv hi row (List.mem_cons_self row rest))
    simp only [buildAndApplyB, mapTextLayersGo]
    cases hA : (findMatchingTextLayer pool (normalize (row.cell sourceLang))).1 with
    | none =>
      have hB : findMatchingTextLayerB L (row.cell sourceLang) = none := by
        rw [hfind, hA]
      simp only [hB, hA]
      rw [findMatchingTextLayer_none_eq _ _ hA]
      congr 1
      exact ih pool L hsub hlen hun
        (fun i v hv hi r hr => hcl i v hv hi r (List.mem_cons_of_mem _ hr))
        hpw.of_cons
    | some idx =>
      have hB : findMatchingTextLayerB L (row.cell sourceLang) = some idx := by
        rw [hfind, hA]
      simp only [hB, hA]
      obtain ⟨p1, p2, hpool, -, hrest⟩ :=
        findMatchingTextLayer_some_decomp _ pool idx hA
      have hidxmem : (idx, normalize (row.cell sourceLang)) ∈ pool := by
        rw [hpool]; simp
      obtain ⟨u, hu, -⟩ := mem_layerPool_zero (hsub.subset hidxmem)
      have hidxlt : idx < L.length := by
        obtain ⟨hlt, -⟩ := List.getElem?_eq_some.mp hu
        omega
      have hnodup : (pool.map Prod.fst).Nodup := hpwlt.imp Nat.ne_of_lt
      have hidxout : idx ∉ (p1 ++ p2).map Prod.fst := by
        rw [hpool, List.map_append, List.map_cons] at hnodup
        exact (List.nodup_cons.mp (List.nodup_middle.mp hnodup)).1 ∘
          (by rw [List.map_append]; exact id)
      have hsubp : List.Sublist (p1 ++ p2) pool := by
        rw [hpool]
        exact (List.sublist_cons_self (idx, normalize (row.cell sourceLang)) p2).append_left p1
      rw [hrest]
      congr 1
      refine ih (p1 ++ p2) (L.set idx (row.cell firstLang))
        (hsubp.trans hsub) (by simpa using hlen) ?_ ?_ hpw.of_cons
      · intro p hp
        have hpne : idx ≠ p.1 := by
          intro he
          exact hidxout (he ▸ List.mem_map.mpr ⟨p, hp, rfl⟩)
        rw [List.getElem?_set_ne hpne]
        exact hun p (hsubp.subset hp)
      · intro i v hv hi r hr
        by_cases hie : i = idx
        · subst hie
          rw [List.getElem?_set_self hidxlt] at hv
          obtain rfl : row.cell firstLang = v := by simpa using hv
          exact (List.pairwise_cons.mp hpw).1 r hr
        · rw [List.getElem?_set_ne (fun he => hie he.symm)] at hv
          have hiout : i ∉ pool.map Prod.fst := by
            intro hin
            rw [hpool, List.map_append, List.map_cons] at hin
            rcases List.mem_append.mp hin with h1 | h2
            · exact hi (by rw [List.map_append]; exact List.mem_append.mpr (Or.inl h1))
            · rcases List.mem_cons.mp h2 with he | hp2
              · exact hie he
              · exact hi (by rw [List.map_append]; exact List.mem_append.mpr (Or.inr hp2))
          exact hcl i v hv hiout r (List.mem_cons_of_mem _ hr)

/-- Claim C9 (amended): the two implementations agree under a
non-interference hypothesis — whenever no row's first-target-language text
normalizes equal to a later row's normalized source-language text, the
mapping built lazily by `generateLocalizedFiles` of `src/unnamed/part_000`
during the first variant equals the mapping built eagerly by `mapTextLayers`
of `src/PictureList_Import.jsx`, and both implementations produce variants
with identical final element texts.  (Without the hypothesis they can
differ, see the counterexample.) -/
theorem lazy_eager_equivalence (templateTexts : List Text) (worksheetData : List Row)
    (sourceLang firstLang : Text) (restLangs : List Text)
    (hpw : worksheetData.Pairwise
      (fun r1 r2 => normalize (r1.cell firstLang) ≠ normalize (r2.cell sourceLang))) :
    (generateLocalizedFilesB templateTexts sourceLang
        (firstLang :: restLangs) worksheetData).1
      = (mapTextLayers templateTexts worksheetData sourceLang).1
    ∧ (generateLocalizedFilesB templateTexts sourceLang
        (firstLang :: restLangs) worksheetData).2
      = generateLocalizedFilesA templateTexts worksheetData
          (mapTextLayers templateTexts worksheetData sourceLang).1
          (firstLang :: restLangs) := by
  have hmap : (buildAndApplyB sourceLang firstLang templateTexts worksheetData).1
      = (mapTextLayers templateTexts worksheetData sourceLang).1 := by
    apply buildAndApplyB_fst_eq_eager sourceLang firstLang templateTexts worksheetData
      (layerPoolFrom 0 templateTexts) templateTexts (List.Sublist.refl _) rfl
      (fun p _ => rfl) ?_ hpw
    intro i v hv hi r hr
    exfalso
    apply hi
    apply List.mem_map.mpr
    refine ⟨(i, normalize v), ?_, rfl⟩
    rw [mem_layerPoolFrom]
    exact ⟨i, by omega, v, hv, rfl⟩
  constructor
  · simp only [generateLocalizedFilesB]
    exact hmap
  · simp only [generateLocalizedFilesB, generateLocalizedFilesA, List.map_cons]
    rw [buildAndApplyB_snd, hmap]
    rfl

/-- Counterexample to claim C9 as stated: with elements `["A", "B"]`, rows
`{en: "A", fr: "B"}` and `{en: "B", fr: "C"}`, source `"en"` and single
target `"fr"`, the lazy mapping of `part_000` is `[0, 0]` (the second row
matches element 0, whose text was already rewritten to `"B"`), while the
eager mapping of `PictureList_Import.jsx` is `[0, 1]`, and the generated
variant texts differ (`["C", "B"]` vs `["B", "C"]`). -/
theorem lazy_eager_counterexample :
    ¬ ((generateLocalizedFilesB [['A'], ['B']] ['e', 'n'] [['f', 'r']]
          [⟨fun lang => if lang = ['e', 'n'] then ['A'] else ['B']⟩,
           ⟨fun lang => if lang = ['e', 'n'] then ['B'] else ['C']⟩]).1
        = (mapTextLayers [['A'], ['B']]
            [⟨fun lang => if lang = ['e', 'n'] then ['A'] else ['B']⟩,
             ⟨fun lang => if lang = ['e', 'n'] then ['B'] else ['C']⟩] ['e', 'n']).1
      ∧ (generateLocalizedFilesB [['A'], ['B']] ['e', 'n'] [['f', 'r']]
          [⟨fun lang => if lang = ['e', 'n'] then ['A'] else ['B']⟩,
           ⟨fun lang => if lang = ['e', 'n'] then ['B'] else ['C']⟩]).2
        = generateLocalizedFilesA [['A'], ['B']]
            [⟨fun lang => if lang = ['e', 'n'] then ['A'] else ['B']⟩,
             ⟨fun lang => if lang = ['e', 'n'] then ['B'] else ['C']⟩]
            (mapTextLayers [['A'], ['B']]
              [⟨fun lang => if lang = ['e', 'n'] then ['A'] else ['B']⟩,
               ⟨fun lang => if lang = ['e', 'n'] then ['B'] else ['C']⟩] ['e', 'n']).1
            [['f', 'r']]) := by
  decide

/-- Witness for `lazy_eager_equivalence`: its non-interference hypothesis is
satisfiable and the equivalence holds on a concrete run. -/
theorem lazy_eager_equivalence_witness :
    (generateLocalizedFilesB [['A'], ['B']] ['e', 'n'] [['f', 'r']]
        [⟨fun lang => if lang = ['e', 'n'] then ['A'] else ['X']⟩,
         ⟨fun lang => if lang = ['e', 'n'] then ['B'] else ['Y']⟩]).1
      = (mapTextLayers [['A'], ['B']]
          [⟨fun lang => if lang = ['e', 'n'] then ['A'] else ['X']⟩,
           ⟨fun lang => if lang = ['e', 'n'] then ['B'] else ['Y']⟩] ['e', 'n']).1 :=
  (lazy_eager_equivalence [['A'], ['B']]
    [⟨fun lang => if lang = ['e', 'n'] then ['A'] else ['X']⟩,
     ⟨fun lang => if lang = ['e', 'n'] then ['B'] else ['Y']⟩]
    ['e', 'n'] ['f', 'r'] [] (by decide)).1

end PictureList
